import Mathlib

open scoped List

/-!
Verification of the parallel_agents race orchestrator against its
natural-language specification.  The Python sources under
src/parallel_agents are embedded shallowly: numpy float vectors and
matrices become rational vectors and matrices (`Fin d → ℚ`), dicts become
association lists, exceptions become `Except`/`Option`, and the event
streams consumed by the streaming driver become explicit lists.  Machine
floating point is modelled by exact rationals; `np.sqrt`, which feeds only
order comparisons between UCB scores, is carried as an explicit function
parameter.
-/

namespace RoutingLinUCB

/-! Embedding of src/routing/routing_linucb.py.

Vectors and matrices are total functions out of `Fin d`, with sums taken
over `Finset.univ`, mirroring the numpy expressions used by the source. -/

/-- Rational vector of dimension d, modelling a numpy array of shape (d,). -/
def Vec (d : ℕ) : Type := Fin d → ℚ

/-- Rational matrix, modelling a numpy array of shape (d, d). -/
def Mat (d : ℕ) : Type := Fin d → Fin d → ℚ

/-- Dot product, modelling `u @ v` on vectors. -/
def dot {d : ℕ} (u v : Vec d) : ℚ := ∑ i, u i * v i

/-- Matrix-vector product, modelling `A @ x`. -/
def matVec {d : ℕ} (A : Mat d) (x : Vec d) : Vec d := fun i => ∑ j, A i j * x j

/-- Outer product, modelling `np.outer(u, v)`. -/
def outer {d : ℕ} (u v : Vec d) : Mat d := fun i j => u i * v j

/-- Pointwise sum of vectors. -/
def vadd {d : ℕ} (u v : Vec d) : Vec d := fun i => u i + v i

/-- Scalar multiple of a vector. -/
def vsmul {d : ℕ} (c : ℚ) (u : Vec d) : Vec d := fun i => c * u i

/-- Per-arm LinUCB state: `A_inv` is the ridge-regression inverse design
matrix, `b` the accumulated reward-weighted features.  Mirrors `_ArmState`
in routing_linucb.py. -/
structure ArmState (d : ℕ) where
  A_inv : Mat d
  b : Vec d

/-- Initial arm state created by `LinUCBRouter._ensure`:
`A_inv = (1/lam) I` and `b = 0` with `lam = max(1e-9, ridge_lambda)`. -/
def initArmState (d : ℕ) (ridgeLambda : ℚ) : ArmState d :=
  let lam := max (1/1000000000) ridgeLambda
  { A_inv := fun i j => if i = j then 1 / lam else 0
    b := fun _ => 0 }

/-- One Sherman-Morrison update, mirroring `LinUCBRouter.update` (the
state mutation on lines 99-108 of routing_linucb.py, including the
numerical floor on the denominator). -/
def updateArm {d : ℕ} (st : ArmState d) (x : Vec d) (reward : ℚ) : ArmState d :=
  let Ainv_x := matVec st.A_inv x
  let denom0 := 1 + dot x Ainv_x
  let denom := if denom0 ≤ 1/1000000000 then (1/1000000000 : ℚ) else denom0
  { A_inv := fun i j => st.A_inv i j - (outer Ainv_x Ainv_x) i j / denom
    b := vadd st.b (vsmul reward x) }

/-- Fold a list of `(x, reward)` updates over an arm state. -/
def runUpdates {d : ℕ} (st : ArmState d) (ups : List (Vec d × ℚ)) : ArmState d :=
  ups.foldl (fun s p => updateArm s p.1 p.2) st

/-- Mean component of the UCB score of an arm at features x:
`x^T (A_inv b)`, i.e. `means` in `LinUCBRouter.select`. -/
def meanScore {d : ℕ} (st : ArmState d) (x : Vec d) : ℚ :=
  dot x (matVec st.A_inv st.b)

/-- Symmetry of a matrix. -/
def Symm {d : ℕ} (A : Mat d) : Prop := ∀ i j, A i j = A j i

/-- Positive semidefiniteness, stated over rationals. -/
def PSD {d : ℕ} (A : Mat d) : Prop := ∀ z : Vec d, 0 ≤ dot z (matVec A z)

/-- Arm states reachable from the initial state by a finite sequence of
updates with arbitrary feature vectors and rewards. -/
def Reachable {d : ℕ} (ridgeLambda : ℚ) (st : ArmState d) : Prop :=
  ∃ ups : List (Vec d × ℚ), st = runUpdates (initArmState d ridgeLambda) ups

lemma symm_init (d : ℕ) (lam : ℚ) : Symm (initArmState d lam).A_inv := by
  intro i j
  simp only [initArmState]
  by_cases h : i = j <;> simp [h, eq_comm]

lemma symm_update {d : ℕ} {st : ArmState d} (hs : Symm st.A_inv)
    (x : Vec d) (r : ℚ) : Symm (updateArm st x r).A_inv := by
  intro i j
  simp only [updateArm, outer]
  rw [hs i j, mul_comm]

lemma symm_runUpdates {d : ℕ} {st : ArmState d} (hs : Symm st.A_inv)
    (ups : List (Vec d × ℚ)) : Symm (runUpdates st ups).A_inv := by
  induction ups generalizing st with
  | nil => exact hs
  | cons p rest ih => exact ih (symm_update hs p.1 p.2)

lemma dot_comm {d : ℕ} (u v : Vec d) : dot u v = dot v u := by
  unfold dot
  exact Finset.sum_congr rfl fun i _ => mul_comm _ _

lemma bil_symm {d : ℕ} {A : Mat d} (hA : Symm A) (u v : Vec d) :
    dot u (matVec A v) = dot v (matVec A u) := by
  unfold dot matVec
  have h1 : ∀ w z : Vec d, ∀ B : Mat d,
      (∑ i, w i * ∑ j, B i j * z j) = ∑ i, ∑ j, w i * (B i j * z j) :=
    fun w z B => Finset.sum_congr rfl fun i _ => Finset.mul_sum _ _ _
  rw [h1, h1, Finset.sum_comm]
  exact Finset.sum_congr rfl fun i _ => Finset.sum_congr rfl fun j _ => by
    rw [hA j i]; ring

lemma quadform_update {d : ℕ} (st : ArmState d) (x : Vec d) (r : ℚ) (z : Vec d)
    (hs : 0 ≤ dot x (matVec st.A_inv x)) :
    dot z (matVec (updateArm st x r).A_inv z) =
      dot z (matVec st.A_inv z) -
        (dot z (matVec st.A_inv x))^2 / (1 + dot x (matVec st.A_inv x)) := by
  have hcond : ¬ (1 + dot x (matVec st.A_inv x) ≤ 1/1000000000) := by
    intro h; nlinarith
  set u := matVec st.A_inv x with hu
  set D := 1 + dot x u with hD
  have hrow : ∀ i, (∑ j, (st.A_inv i j - (outer u u) i j / D) * z j) =
      (∑ j, st.A_inv i j * z j) - u i * (∑ j, u j * z j) / D := by
    intro i
    calc (∑ j, (st.A_inv i j - (outer u u) i j / D) * z j)
        = ∑ j, (st.A_inv i j * z j - u i / D * (u j * z j)) :=
          Finset.sum_congr rfl fun j _ => by unfold outer; ring
      _ = (∑ j, st.A_inv i j * z j) - u i / D * (∑ j, u j * z j) := by
          rw [Finset.sum_sub_distrib, Finset.mul_sum]
      _ = (∑ j, st.A_inv i j * z j) - u i * (∑ j, u j * z j) / D := by ring
  have hT : (∑ j, u j * z j) = dot z u := by
    unfold dot; exact Finset.sum_congr rfl fun j _ => mul_comm _ _
  have key : (∑ i, z i * ∑ j, (st.A_inv i j - (outer u u) i j / D) * z j) =
      (∑ i, z i * ∑ j, st.A_inv i j * z j) - (dot z u)^2 / D := by
    calc (∑ i, z i * ∑ j, (st.A_inv i j - (outer u u) i j / D) * z j)
        = ∑ i, (z i * (∑ j, st.A_inv i j * z j) -
            z i * u i * ((∑ j, u j * z j) / D)) :=
          Finset.sum_congr rfl fun i _ => by rw [hrow i]; ring
      _ = (∑ i, z i * ∑ j, st.A_inv i j * z j) -
            (∑ i, z i * u i) * ((∑ j, u j * z j) / D) := by
          rw [Finset.sum_sub_distrib, Finset.sum_mul]
      _ = (∑ i, z i * ∑ j, st.A_inv i j * z j) - (dot z u)^2 / D := by
          rw [hT]
          have : (∑ i, z i * u i) = dot z u := rfl
          rw [this]; ring
  unfold updateArm
  simp only [hu.symm, hD.symm, hcond, if_false]
  exact key

lemma dot_vadd_vsmul {d : ℕ} (u v w : Vec d) (c : ℚ) :
    dot u (vadd v (vsmul c w)) = dot u v + c * dot u w := by
  unfold dot vadd vsmul
  calc (∑ i, u i * (v i + c * w i))
      = ∑ i, (u i * v i + c * (u i * w i)) :=
        Finset.sum_congr rfl fun i _ => by ring
    _ = (∑ i, u i * v i) + c * ∑ i, u i * w i := by
        rw [Finset.sum_add_distrib, Finset.mul_sum]

lemma matVec_vadd_vsmul {d : ℕ} (A : Mat d) (v w : Vec d) (c : ℚ) :
    matVec A (vadd v (vsmul c w)) = vadd (matVec A v) (vsmul c (matVec A w)) := by
  funext i
  unfold matVec vadd vsmul
  calc (∑ j, A i j * (v j + c * w j))
      = ∑ j, (A i j * v j + c * (A i j * w j)) :=
        Finset.sum_congr rfl fun j _ => by ring
    _ = (∑ j, A i j * v j) + c * ∑ j, A i j * w j := by
        rw [Finset.sum_add_distrib, Finset.mul_sum]

lemma cauchy_schwarz_psd {d : ℕ} {A : Mat d} (hA : Symm A) (hP : PSD A)
    (z x : Vec d) :
    (dot z (matVec A x))^2 ≤ (dot z (matVec A z)) * (1 + dot x (matVec A x)) := by
  set q := dot z (matVec A x) with hq0
  set s := dot x (matVec A x) with hs0
  set zz := dot z (matVec A z) with hzz0
  have hs : 0 ≤ s := hP x
  have hzz : 0 ≤ zz := hP z
  have hD : (0:ℚ) < 1 + s := by linarith
  set c : ℚ := -(q / (1 + s)) with hc0
  have h0 : 0 ≤ dot (vadd z (vsmul c x)) (matVec A (vadd z (vsmul c x))) := hP _
  have hswap : dot x (matVec A z) = q := by rw [hq0, bil_symm hA]
  have hexp : dot (vadd z (vsmul c x)) (matVec A (vadd z (vsmul c x))) =
      zz + 2*c*q + c^2*s := by
    rw [matVec_vadd_vsmul]
    have hleft : ∀ y : Vec d, dot (vadd z (vsmul c x)) y = dot z y + c * dot x y := by
      intro y
      rw [dot_comm, dot_vadd_vsmul, dot_comm y z, dot_comm y x]
    rw [dot_vadd_vsmul, hleft, hleft, hswap, ← hq0, ← hs0, ← hzz0]
    ring
  rw [hexp] at h0
  have hcq : c * (1 + s) = -q := by
    rw [hc0]; field_simp
  have h1 : 0 ≤ (zz + 2*c*q + c^2*s) * (1+s)^2 := mul_nonneg h0 (by positivity)
  have h2 : (zz + 2*c*q + c^2*s) * (1+s)^2 =
      zz*(1+s)^2 + 2*q*(1+s)*(c*(1+s)) + s*(c*(1+s))^2 := by ring
  rw [h2, hcq] at h1
  nlinarith [h1, hs, hzz, hD, sq_nonneg q, mul_pos hD hD]

lemma psd_update {d : ℕ} {st : ArmState d} (hA : Symm st.A_inv)
    (hP : PSD st.A_inv) (x : Vec d) (r : ℚ) : PSD (updateArm st x r).A_inv := by
  intro z
  rw [quadform_update st x r z (hP x)]
  have hD : (0:ℚ) < 1 + dot x (matVec st.A_inv x) := by have := hP x; linarith
  rw [sub_nonneg, div_le_iff₀ hD]
  exact cauchy_schwarz_psd hA hP z x

lemma psd_init (d : ℕ) (lam : ℚ) : PSD (initArmState d lam).A_inv := by
  intro z
  have hlam : (0:ℚ) < max (1/1000000000) lam := lt_max_of_lt_left (by norm_num)
  have hmv : matVec (initArmState d lam).A_inv z =
      fun i => 1 / max (1/1000000000) lam * z i := by
    funext i
    simp only [initArmState, matVec, ite_mul, zero_mul]
    rw [Finset.sum_ite_eq]
    simp
  rw [hmv]
  unfold dot
  refine Finset.sum_nonneg fun i _ => ?_
  have h1 : (0:ℚ) ≤ 1 / max (1/1000000000) lam := by positivity
  calc (0:ℚ) ≤ 1 / max (1/1000000000) lam * (z i * z i) :=
        mul_nonneg h1 (mul_self_nonneg _)
    _ = z i * (1 / max (1/1000000000) lam * z i) := by ring

lemma reachable_symm_psd {d : ℕ} {lam : ℚ} {st : ArmState d}
    (h : Reachable lam st) : Symm st.A_inv ∧ PSD st.A_inv := by
  obtain ⟨ups, rfl⟩ := h
  unfold runUpdates
  suffices hgen : ∀ s0 : ArmState d, Symm s0.A_inv → PSD s0.A_inv →
      Symm (ups.foldl (fun s p => updateArm s p.1 p.2) s0).A_inv ∧
      PSD (ups.foldl (fun s p => updateArm s p.1 p.2) s0).A_inv by
    exact hgen _ (symm_init d lam) (psd_init d lam)
  induction ups with
  | nil => exact fun s0 hA hP => ⟨hA, hP⟩
  | cons p rest ih =>
    intro s0 hA hP
    exact ih _ (symm_update hA p.1 p.2) (psd_update hA hP p.1 p.2)

lemma meanScore_update {d : ℕ} (st : ArmState d) (x : Vec d) (r : ℚ)
    (hA : Symm st.A_inv) (hs : 0 ≤ dot x (matVec st.A_inv x)) :
    meanScore (updateArm st x r) x =
      (meanScore st x + r * dot x (matVec st.A_inv x)) /
        (1 + dot x (matVec st.A_inv x)) := by
  have hcond : ¬ (1 + dot x (matVec st.A_inv x) ≤ 1/1000000000) := by
    intro h; nlinarith
  set u := matVec st.A_inv x with hu
  set s := dot x (matVec st.A_inv x) with hs0
  set D := 1 + s with hD0
  have hDpos : (0:ℚ) < D := by rw [hD0]; linarith
  set b2 := vadd st.b (vsmul r x) with hb2
  -- row expansion of the updated matrix applied to b2, dotted with x
  have hrow : ∀ i, (∑ j, (st.A_inv i j - (outer u u) i j / D) * b2 j) =
      (∑ j, st.A_inv i j * b2 j) - u i * (∑ j, u j * b2 j) / D := by
    intro i
    calc (∑ j, (st.A_inv i j - (outer u u) i j / D) * b2 j)
        = ∑ j, (st.A_inv i j * b2 j - u i / D * (u j * b2 j)) :=
          Finset.sum_congr rfl fun j _ => by unfold outer; ring
      _ = (∑ j, st.A_inv i j * b2 j) - u i / D * (∑ j, u j * b2 j) := by
          rw [Finset.sum_sub_distrib, Finset.mul_sum]
      _ = (∑ j, st.A_inv i j * b2 j) - u i * (∑ j, u j * b2 j) / D := by ring
  have key : (∑ i, x i * ∑ j, (st.A_inv i j - (outer u u) i j / D) * b2 j) =
      dot x (matVec st.A_inv b2) - (dot x u) * (dot u b2) / D := by
    calc (∑ i, x i * ∑ j, (st.A_inv i j - (outer u u) i j / D) * b2 j)
        = ∑ i, (x i * (∑ j, st.A_inv i j * b2 j) -
            x i * u i * ((∑ j, u j * b2 j) / D)) :=
          Finset.sum_congr rfl fun i _ => by rw [hrow i]; ring
      _ = (∑ i, x i * ∑ j, st.A_inv i j * b2 j) -
            (∑ i, x i * u i) * ((∑ j, u j * b2 j) / D) := by
          rw [Finset.sum_sub_distrib, Finset.sum_mul]
      _ = dot x (matVec st.A_inv b2) - (dot x u) * (dot u b2) / D := by
          unfold dot matVec
          ring
  have hmean2 : meanScore (updateArm st x r) x =
      dot x (matVec st.A_inv b2) - (dot x u) * (dot u b2) / D := by
    unfold meanScore updateArm
    simp only [hu.symm, hs0.symm, hD0.symm, hb2.symm, hcond, if_false]
    exact key
  have hxA : dot x (matVec st.A_inv b2) = meanScore st x + r * s := by
    rw [hb2, matVec_vadd_vsmul, dot_vadd_vsmul]
    unfold meanScore
    rfl
  have hub : dot u b2 = meanScore st x + r * s := by
    rw [hb2, dot_vadd_vsmul]
    have h1 : dot u st.b = meanScore st x := by
      unfold meanScore
      rw [bil_symm hA x st.b, dot_comm, hu]
    have h2 : dot u x = s := by rw [dot_comm, hs0, hu]
    rw [h1, h2]
  have hxu : dot x u = s := by rw [hs0, hu]
  rw [hmean2, hxA, hub, hxu, hD0]
  have hne : (1:ℚ) + s ≠ 0 := ne_of_gt (by linarith)
  field_simp
  ring

end RoutingLinUCB

/-- C9: starting from the initial state `A_inv = (1/lambda) I`, the `A_inv`
matrix of an arm remains symmetric (hence symmetric to within 1e-8) after
any finite sequence of `update` calls with arbitrary feature vectors and
rewards. -/
theorem linucb_Ainv_symmetric_after_updates
    (d : ℕ) (ridgeLambda : ℚ) (ups : List (RoutingLinUCB.Vec d × ℚ))
    (i j : Fin d) :
    |(RoutingLinUCB.runUpdates (RoutingLinUCB.initArmState d ridgeLambda) ups).A_inv i j -
      (RoutingLinUCB.runUpdates (RoutingLinUCB.initArmState d ridgeLambda) ups).A_inv j i|
      ≤ 1/100000000 := by
  have h := RoutingLinUCB.symm_runUpdates (RoutingLinUCB.symm_init d ridgeLambda) ups i j
  rw [h]
  simp

/-- C4 (amended): for every reachable arm state, feature vector x, and
reward r that is at least the current mean component of the UCB score at x,
performing `update(x, a, r)` does not decrease the mean component
`x^T (A_inv b)` at the same x.  (As stated with only r >= 0 the claim is
false: the update moves the mean toward r, so it decreases whenever
r is below the current mean; see the counterexample.) -/
theorem linucb_update_mean_nondecreasing
    (d : ℕ) (lam : ℚ) (st : RoutingLinUCB.ArmState d) (x : RoutingLinUCB.Vec d)
    (r : ℚ) (hreach : RoutingLinUCB.Reachable lam st)
    (hr : RoutingLinUCB.meanScore st x ≤ r) :
    RoutingLinUCB.meanScore st x ≤
      RoutingLinUCB.meanScore (RoutingLinUCB.updateArm st x r) x := by
  obtain ⟨hA, hP⟩ := RoutingLinUCB.reachable_symm_psd hreach
  have hs := hP x
  rw [RoutingLinUCB.meanScore_update st x r hA hs]
  rw [le_div_iff₀ (by linarith)]
  nlinarith [mul_le_mul_of_nonneg_right hr hs]

/-- Witness for C4 (amended) at a concrete input: the fresh arm state is
reachable, its mean at x = (1) is 0 ≤ 0, and the update with reward 0 keeps
the mean non-decreasing. -/
theorem linucb_update_mean_nondecreasing_witness :
    RoutingLinUCB.meanScore (RoutingLinUCB.initArmState 1 1) (fun _ => 1) ≤
      RoutingLinUCB.meanScore
        (RoutingLinUCB.updateArm (RoutingLinUCB.initArmState 1 1) (fun _ => 1) 0)
        (fun _ => 1) :=
  linucb_update_mean_nondecreasing 1 1 (RoutingLinUCB.initArmState 1 1)
    (fun _ => 1) 0 ⟨[], rfl⟩
    (by simp [RoutingLinUCB.meanScore, RoutingLinUCB.dot, RoutingLinUCB.matVec,
      RoutingLinUCB.initArmState])

/-- Counterexample to C4 as stated: the state reached by one update with
reward 1 (at lambda = 1e-2, x = (1)) is reachable, and a further update
with reward r = 0 ≥ 0 strictly decreases the mean component of the UCB
score at the same x (from 100/101 down to 100/201). -/
theorem linucb_update_mean_decreases_at_zero_reward :
    RoutingLinUCB.Reachable (1/100)
      (RoutingLinUCB.updateArm (RoutingLinUCB.initArmState 1 (1/100))
        (fun _ => 1) 1) ∧
    RoutingLinUCB.meanScore
      (RoutingLinUCB.updateArm
        (RoutingLinUCB.updateArm (RoutingLinUCB.initArmState 1 (1/100))
          (fun _ => 1) 1)
        (fun _ => 1) 0) (fun _ => 1) <
      RoutingLinUCB.meanScore
        (RoutingLinUCB.updateArm (RoutingLinUCB.initArmState 1 (1/100))
          (fun _ => 1) 1) (fun _ => 1) := by
  refine ⟨⟨[(fun _ => 1, 1)], rfl⟩, ?_⟩
  norm_num [RoutingLinUCB.meanScore, RoutingLinUCB.dot, RoutingLinUCB.matVec,
    RoutingLinUCB.updateArm, RoutingLinUCB.initArmState, RoutingLinUCB.outer,
    RoutingLinUCB.vadd, RoutingLinUCB.vsmul, Fin.sum_univ_one]

namespace RoutingLinUCB

/-! Embedding of `LinUCBRouter.select` (routing_linucb.py lines 52-91).

The numpy calls `np.argpartition(-scores, k_eff - 1)` and
`np.argsort(scores[top_indices])` are modelled by the deterministic
algorithms numpy uses on arrays below its small-array thresholds (the
select-based partial selection sort used by introselect, and the stable
insertion sort used by quicksort), both of which compare values strictly.
`np.sqrt` is carried as an explicit function parameter: it feeds only the
order comparisons between scores, so every claim below is stated for an
arbitrary choice of that function and witnessed at a concrete one. -/

/-- Value of a list at an index, defaulting to 0 in the (unreachable)
out-of-bounds case. -/
lemma getD_eq_getElem {α : Type} (l : List α) (dflt : α) {n : ℕ}
    (h : n < l.length) : l.getD n dflt = l[n] := by
  simp [List.getD_eq_getElem?_getD, List.getElem?_eq_getElem h]

/-- Swap of two positions of an index array, modelling `INTP_SWAP`. -/
def swapAt (l : List ℕ) (i j : ℕ) : List ℕ :=
  (l.set i (l.getD j 0)).set j (l.getD i 0)

lemma cons_set_perm {α : Type} (xs : List α) (m : ℕ) (hm : m < xs.length)
    (x dflt : α) : xs.getD m dflt :: xs.set m x ~ x :: xs := by
  have h1 : xs.set m x = xs.take m ++ x :: xs.drop (m+1) :=
    List.set_eq_take_cons_drop x hm
  have h2 : xs = xs.take m ++ xs.getD m dflt :: xs.drop (m+1) := by
    conv_lhs => rw [← List.take_append_drop m xs]
    rw [getD_eq_getElem xs dflt hm, List.getElem_cons_drop xs m hm]
  calc xs.getD m dflt :: xs.set m x
      = xs.getD m dflt :: (xs.take m ++ x :: xs.drop (m+1)) := by rw [h1]
    _ ~ xs.getD m dflt :: x :: (xs.take m ++ xs.drop (m+1)) :=
        List.Perm.cons _ List.perm_middle
    _ ~ x :: xs.getD m dflt :: (xs.take m ++ xs.drop (m+1)) :=
        List.Perm.swap _ _ _
    _ ~ x :: (xs.take m ++ xs.getD m dflt :: xs.drop (m+1)) :=
        List.Perm.cons _ List.perm_middle.symm
    _ = x :: xs := by rw [← h2]

lemma set_set_swap_perm {α : Type} (dflt : α) :
    ∀ (l : List α) (i j : ℕ), i < l.length → j < l.length →
      (l.set i (l.getD j dflt)).set j (l.getD i dflt) ~ l := by
  intro l
  induction l with
  | nil => intro i j hi _; simp at hi
  | cons x xs ih =>
    intro i j hi hj
    rcases i with _ | n <;> rcases j with _ | m
    · simp
    · have hm : m < xs.length := by simpa using hj
      simpa using cons_set_perm xs m hm x dflt
    · have hn : n < xs.length := by simpa using hi
      simpa using cons_set_perm xs n hn x dflt
    · have hn : n < xs.length := by simpa using hi
      have hm : m < xs.length := by simpa using hj
      simpa using List.Perm.cons x (ih n m hn hm)

lemma swapAt_perm (l : List ℕ) (i j : ℕ) (hi : i < l.length)
    (hj : j < l.length) : swapAt l i j ~ l :=
  set_set_swap_perm 0 l i j hi hj

end RoutingLinUCB

namespace RoutingLinUCB

/-- Inner scan of the numpy dumbselect loop used by `np.argpartition` on
small arrays: starting from `minidx = i`, scan the positions after i and
keep the first strict minimum of the values indexed by the array. -/
def argminScan (vals : List ℚ) (tosort : List ℕ) (i : ℕ) : ℕ :=
  (List.range (tosort.length - (i+1))).foldl
    (fun minidx off =>
      let k := i + 1 + off
      if vals.getD (tosort.getD k 0) 0 < vals.getD (tosort.getD minidx 0) 0
      then k else minidx)
    i

/-- Partial selection sort on an index array, modelling the deterministic
routine numpy introselect runs for `np.argpartition` below its small-array
threshold: after the call, positions 0..kth index the kth+1 smallest values
in ascending order, comparisons being strict (ties keep the earlier index
first). -/
def argpartition (vals : List ℚ) (kth : ℕ) : List ℕ :=
  (List.range (kth+1)).foldl
    (fun ts i => swapAt ts i (argminScan vals ts i))
    (List.range vals.length)

lemma argminScan_lt_or_eq (vals : List ℚ) (tosort : List ℕ) (i : ℕ) :
    argminScan vals tosort i < tosort.length ∨ argminScan vals tosort i = i := by
  unfold argminScan
  have hgen : ∀ (L : List ℕ), (∀ off ∈ L, i + 1 + off < tosort.length) →
      ∀ acc, (acc < tosort.length ∨ acc = i) →
      ((L.foldl (fun minidx off =>
          let k := i + 1 + off
          if vals.getD (tosort.getD k 0) 0 < vals.getD (tosort.getD minidx 0) 0
          then k else minidx) acc) < tosort.length ∨
        (L.foldl (fun minidx off =>
          let k := i + 1 + off
          if vals.getD (tosort.getD k 0) 0 < vals.getD (tosort.getD minidx 0) 0
          then k else minidx) acc) = i) := by
    intro L
    induction L with
    | nil => intro _ acc hacc; exact hacc
    | cons o rest ih =>
      intro hmem acc hacc
      rw [List.foldl_cons]
      refine ih (fun off hoff => hmem off (List.mem_cons_of_mem o hoff)) _ ?_
      show (if vals.getD (tosort.getD (i + 1 + o) 0) 0 <
            vals.getD (tosort.getD acc 0) 0 then i + 1 + o else acc) <
          tosort.length ∨
        (if vals.getD (tosort.getD (i + 1 + o) 0) 0 <
            vals.getD (tosort.getD acc 0) 0 then i + 1 + o else acc) = i
      split_ifs with hlt
      · exact Or.inl (hmem o (List.mem_cons_self o rest))
      · exact hacc
  refine hgen _ (fun off hoff => ?_) i (Or.inr rfl)
  have := List.mem_range.mp hoff
  omega

lemma argminScan_empty (vals : List ℚ) (tosort : List ℕ) (i : ℕ)
    (h : tosort.length ≤ i) : argminScan vals tosort i = i := by
  unfold argminScan
  rw [Nat.sub_eq_zero_of_le (by omega), List.range_zero, List.foldl_nil]

lemma swapAt_argminScan_perm (vals : List ℚ) (ts : List ℕ) (i : ℕ) :
    swapAt ts i (argminScan vals ts i) ~ ts := by
  by_cases hi : i < ts.length
  · rcases argminScan_lt_or_eq vals ts i with hm | hm
    · exact swapAt_perm ts i _ hi hm
    · rw [hm]; exact swapAt_perm ts i i hi hi
  · push_neg at hi
    rw [argminScan_empty vals ts i hi]
    unfold swapAt
    rw [List.set_eq_of_length_le (by simpa using hi),
      List.set_eq_of_length_le (by simpa using hi)]

lemma argpartition_perm (vals : List ℚ) (kth : ℕ) :
    argpartition vals kth ~ List.range vals.length := by
  unfold argpartition
  have hgen : ∀ (L : List ℕ) (ts : List ℕ), ts ~ List.range vals.length →
      (L.foldl (fun ts i => swapAt ts i (argminScan vals ts i)) ts) ~
        List.range vals.length := by
    intro L
    induction L with
    | nil => intro ts hts; exact hts
    | cons i rest ih =>
      intro ts hts
      exact ih _ ((swapAt_argminScan_perm vals ts i).trans hts)
  exact hgen _ _ (List.Perm.refl _)

/-- Stable insertion of an index into an already sorted index list: the
index moves left only past strictly greater values.  This is the outer
step of the insertion sort numpy runs for `np.argsort` (quicksort kind)
below its small-array threshold, so equal values keep their original
relative order. -/
def insertAsc (vals : List ℚ) (i : ℕ) : List ℕ → List ℕ
  | [] => [i]
  | j :: rest =>
    if vals.getD i 0 < vals.getD j 0 then i :: j :: rest
    else j :: insertAsc vals i rest

/-- Stable ascending argsort by value, modelling `np.argsort`. -/
def argsortAsc (vals : List ℚ) : List ℕ :=
  (List.range vals.length).foldl (fun acc i => insertAsc vals i acc) []

lemma insertAsc_perm (vals : List ℚ) (i : ℕ) (l : List ℕ) :
    insertAsc vals i l ~ i :: l := by
  induction l with
  | nil => exact List.Perm.refl _
  | cons j rest ih =>
    unfold insertAsc
    by_cases h : vals.getD i 0 < vals.getD j 0
    · simp only [h, if_true]
      exact List.Perm.refl _
    · simp only [h, if_false]
      exact (ih.cons j).trans (List.Perm.swap i j rest)

lemma foldl_insertAsc_perm (vals : List ℚ) :
    ∀ (L : List ℕ) (acc : List ℕ),
      (L.foldl (fun acc i => insertAsc vals i acc) acc) ~ L ++ acc := by
  intro L
  induction L with
  | nil => intro acc; exact List.Perm.refl _
  | cons x rest ih =>
    intro acc
    calc (rest.foldl (fun acc i => insertAsc vals i acc) (insertAsc vals x acc))
        ~ rest ++ insertAsc vals x acc := ih _
      _ ~ rest ++ x :: acc := (insertAsc_perm vals x acc).append_left rest
      _ ~ x :: (rest ++ acc) := List.perm_middle
      _ = (x :: rest) ++ acc := rfl

lemma argsortAsc_perm (vals : List ℚ) :
    argsortAsc vals ~ List.range vals.length := by
  unfold argsortAsc
  simpa using foldl_insertAsc_perm vals (List.range vals.length) []

/-- Index part of `LinUCBRouter.select` (lines 86-90): compute `k_eff`,
take the k_eff smallest entries of the negated scores via argpartition,
then reorder them descending by score via argsort and a reversal. -/
def selectIdx (scores : List ℚ) (k : ℕ) : List ℕ :=
  let keff := max 1 (min k scores.length)
  let top := (argpartition (scores.map (fun s => -s)) (keff - 1)).take keff
  let gathered := top.map (fun idx => scores.getD idx 0)
  let ord := (argsortAsc gathered).reverse
  ord.map (fun p => top.getD p 0)

lemma selectIdx_spec (scores : List ℚ) (k : ℕ) (hn : 0 < scores.length) :
    (selectIdx scores k).length = max 1 (min k scores.length) ∧
    (selectIdx scores k).Nodup ∧
    ∀ i ∈ selectIdx scores k, i < scores.length := by
  set n := scores.length with hn0
  set keff := max 1 (min k n) with hkeff
  have hkn : keff ≤ n := by omega
  have hperm : argpartition (scores.map (fun s => -s)) (keff - 1) ~
      List.range n := by
    have := argpartition_perm (scores.map (fun s => -s)) (keff - 1)
    rwa [List.length_map] at this
  set top := (argpartition (scores.map (fun s => -s)) (keff - 1)).take keff
    with htop
  have htoplen : top.length = keff := by
    rw [htop, List.length_take, hperm.length_eq, List.length_range]
    omega
  have htopnodup : top.Nodup :=
    (List.take_sublist _ _).nodup (hperm.nodup_iff.mpr (List.nodup_range n))
  have htopmem : ∀ idx ∈ top, idx < n := by
    intro idx hidx
    have : idx ∈ List.range n :=
      hperm.mem_iff.mp (List.mem_of_mem_take hidx)
    exact List.mem_range.mp this
  set gathered := top.map (fun idx => scores.getD idx 0) with hg
  have hglen : gathered.length = keff := by rw [hg, List.length_map, htoplen]
  set ord := (argsortAsc gathered).reverse with hord
  have hordperm : ord ~ List.range keff := by
    rw [hord, ← hglen]
    exact (List.reverse_perm _).trans (argsortAsc_perm gathered)
  have hordnodup : ord.Nodup := hordperm.nodup_iff.mpr (List.nodup_range keff)
  have hordmem : ∀ p ∈ ord, p < keff := by
    intro p hp
    exact List.mem_range.mp (hordperm.mem_iff.mp hp)
  have hsel : selectIdx scores k = ord.map (fun p => top.getD p 0) := rfl
  refine ⟨?_, ?_, ?_⟩
  · rw [hsel, List.length_map, hordperm.length_eq, List.length_range]
  · rw [hsel]
    refine List.Nodup.map_on ?_ hordnodup
    intro p hp q hq hpq
    have hplt : p < top.length := htoplen ▸ hordmem p hp
    have hqlt : q < top.length := htoplen ▸ hordmem q hq
    rw [getD_eq_getElem top 0 hplt, getD_eq_getElem top 0 hqlt] at hpq
    exact (htopnodup.getElem_inj_iff).mp hpq
  · rw [hsel]
    intro i hi
    obtain ⟨p, hp, rfl⟩ := List.mem_map.mp hi
    have hplt : p < top.length := htoplen ▸ hordmem p hp
    rw [getD_eq_getElem top 0 hplt]
    exact htopmem _ (List.getElem_mem hplt)

end RoutingLinUCB

namespace RoutingLinUCB

/-- Router state: alpha, ridge lambda, and the per-arm states dictionary,
mirroring the `LinUCBRouter` attributes used by `select` and `update`.
The feature dimension is carried in the type. -/
structure RouterState (d : ℕ) where
  alpha : ℚ
  ridgeLambda : ℚ
  arms : List (String × ArmState d)

/-- State of an arm after `_ensure`: the stored state when present, the
freshly initialized state otherwise. -/
def stateOf {d : ℕ} (rt : RouterState d) (a : String) : ArmState d :=
  (rt.arms.lookup a).getD (initArmState d rt.ridgeLambda)

/-- UCB score of one arm at features x (select lines 71-85):
`mean + alpha * sqrt(max 0 var) + bias`, where the variance is floored at 0
by `np.maximum` and `np.sqrt` is the abstract parameter `sqrtFn`.  The
source adds a zero bias vector when `arm_bias` is falsy, so the absent-bias
case is the constant-zero function. -/
def ucbScore {d : ℕ} (rt : RouterState d) (sqrtFn : ℚ → ℚ) (x : Vec d)
    (bias : String → ℚ) (a : String) : ℚ :=
  let st := stateOf rt a
  meanScore st x + rt.alpha * sqrtFn (max 0 (dot x (matVec st.A_inv x))) +
    bias a

/-- Scores of the ordered arms list, i.e. `scores = means + ucbs + bias_vec`
computed arm-wise. -/
def scoresList {d : ℕ} (rt : RouterState d) (sqrtFn : ℚ → ℚ) (x : Vec d)
    (arms : List String) (bias : String → ℚ) : List ℚ :=
  arms.map (ucbScore rt sqrtFn x bias)

/-- Embedding of `LinUCBRouter.select`: score every arm of the input list
(after `_ensure`) and return the arms at the selected top-k indices.  The
dimension check on x is carried by the type. -/
def select {d : ℕ} (rt : RouterState d) (sqrtFn : ℚ → ℚ) (x : Vec d)
    (arms : List String) (k : ℕ) (bias : String → ℚ) : List String :=
  (selectIdx (scoresList rt sqrtFn x arms bias) k).map
    (fun i => arms.getD i "")

end RoutingLinUCB

/-- C2 (amended): for every router state, every feature vector x of the
router dimension, every non-empty duplicate-free arms list, and every
k ≥ 1, `select(x, arms, k)` returns exactly `min(k, |arms|)` distinct
elements, each drawn from the arms list.  (As frozen the claim quantifies
over every k; at k = 0 the source computes `k_eff = max(1, min(k, n)) = 1`
and returns one arm, not zero, see the counterexample.) -/
theorem linucb_select_returns_min_k_distinct_arms
    (d : ℕ) (rt : RoutingLinUCB.RouterState d) (sqrtFn : ℚ → ℚ)
    (x : RoutingLinUCB.Vec d) (arms : List String) (k : ℕ)
    (bias : String → ℚ) (hne : arms ≠ []) (hnd : arms.Nodup) (hk : 1 ≤ k) :
    (RoutingLinUCB.select rt sqrtFn x arms k bias).length = min k arms.length ∧
    (RoutingLinUCB.select rt sqrtFn x arms k bias).Nodup ∧
    ∀ a ∈ RoutingLinUCB.select rt sqrtFn x arms k bias, a ∈ arms := by
  have hpos : 0 < arms.length := List.length_pos.mpr hne
  have hslen : (RoutingLinUCB.scoresList rt sqrtFn x arms bias).length =
      arms.length := List.length_map _ _
  obtain ⟨hlen, hnodup, hmem⟩ :=
    RoutingLinUCB.selectIdx_spec (RoutingLinUCB.scoresList rt sqrtFn x arms bias)
      k (hslen ▸ hpos)
  rw [hslen] at hlen hmem
  have hmax : max 1 (min k arms.length) = min k arms.length := by omega
  refine ⟨?_, ?_, ?_⟩
  · rw [RoutingLinUCB.select, List.length_map, hlen, hmax]
  · rw [RoutingLinUCB.select]
    refine List.Nodup.map_on ?_ hnodup
    intro p hp q hq hpq
    rw [RoutingLinUCB.getD_eq_getElem arms "" (hmem p hp),
      RoutingLinUCB.getD_eq_getElem arms "" (hmem q hq)] at hpq
    exact (hnd.getElem_inj_iff).mp hpq
  · rw [RoutingLinUCB.select]
    intro a ha
    obtain ⟨p, hp, rfl⟩ := List.mem_map.mp ha
    rw [RoutingLinUCB.getD_eq_getElem arms "" (hmem p hp)]
    exact List.getElem_mem (hmem p hp)

/-- Witness for C2 (amended) at a concrete input: two fresh arms, k = 1. -/
theorem linucb_select_returns_min_k_distinct_arms_witness :
    (["a", "b"] : List String) ≠ [] ∧ (["a", "b"] : List String).Nodup ∧
    ((RoutingLinUCB.select (RoutingLinUCB.RouterState.mk 1 1 ([] : List (String × RoutingLinUCB.ArmState 1)))
        id (fun _ => 0) ["a", "b"] 1 (fun _ => 0)).length =
          min 1 (["a", "b"] : List String).length ∧
      (RoutingLinUCB.select (RoutingLinUCB.RouterState.mk 1 1 ([] : List (String × RoutingLinUCB.ArmState 1)))
        id (fun _ => 0) ["a", "b"] 1 (fun _ => 0)).Nodup ∧
      ∀ a ∈ RoutingLinUCB.select (RoutingLinUCB.RouterState.mk 1 1 ([] : List (String × RoutingLinUCB.ArmState 1)))
        id (fun _ => 0) ["a", "b"] 1 (fun _ => 0), a ∈ (["a", "b"] : List String)) :=
  ⟨by decide, by decide,
    linucb_select_returns_min_k_distinct_arms 1
      (RoutingLinUCB.RouterState.mk 1 1 ([] : List (String × RoutingLinUCB.ArmState 1)))
      id (fun _ => 0) ["a", "b"] 1 (fun _ => 0)
      (by decide) (by decide) (by decide)⟩

/-- Evaluation lemma: on two exactly tied scores with k = 2, the selected
index order is [1, 0] — the descending reorder reverses the tied pair. -/
lemma selectIdx_pair_tie (s : ℚ) : RoutingLinUCB.selectIdx [s, s] 2 = [1, 0] := by
  simp [RoutingLinUCB.selectIdx, RoutingLinUCB.argpartition,
    RoutingLinUCB.argsortAsc, RoutingLinUCB.argminScan, RoutingLinUCB.swapAt,
    RoutingLinUCB.insertAsc, List.range_succ, lt_irrefl]

/-- Counterexample to C3 as stated: on a fresh router (d = 1, alpha = 1,
lambda = 1) the two arms "a" and "b" have exactly equal UCB scores at
x = (1), yet `select` ranks "b" — the later arm of the input list — first:
the argsort reorder of the selected indices is reversed, so exact ties are
returned in reverse input order, not input order. -/
theorem linucb_select_tie_ranks_later_arm_first :
    RoutingLinUCB.ucbScore
        (RoutingLinUCB.RouterState.mk 1 1 ([] : List (String × RoutingLinUCB.ArmState 1)))
        id (fun _ => 1) (fun _ => 0) "a" =
      RoutingLinUCB.ucbScore
        (RoutingLinUCB.RouterState.mk 1 1 ([] : List (String × RoutingLinUCB.ArmState 1)))
        id (fun _ => 1) (fun _ => 0) "b" ∧
    RoutingLinUCB.select
        (RoutingLinUCB.RouterState.mk 1 1 ([] : List (String × RoutingLinUCB.ArmState 1)))
        id (fun _ => 1) ["a", "b"] 2 (fun _ => 0) = ["b", "a"] := by
  refine ⟨rfl, ?_⟩
  have hsc : RoutingLinUCB.scoresList
      (RoutingLinUCB.RouterState.mk 1 1 ([] : List (String × RoutingLinUCB.ArmState 1)))
      id (fun _ => 1) ["a", "b"] (fun _ => 0) =
      [RoutingLinUCB.ucbScore
          (RoutingLinUCB.RouterState.mk 1 1 ([] : List (String × RoutingLinUCB.ArmState 1)))
          id (fun _ => 1) (fun _ => 0) "a",
        RoutingLinUCB.ucbScore
          (RoutingLinUCB.RouterState.mk 1 1 ([] : List (String × RoutingLinUCB.ArmState 1)))
          id (fun _ => 1) (fun _ => 0) "a"] := rfl
  rw [RoutingLinUCB.select, hsc, selectIdx_pair_tie]
  rfl

/-- C3 (amended): `select` is a deterministic function of the router state,
alpha (a field of the state), the sqrt model, the feature vector, the input
arm order, k and the bias — two calls with equal inputs return equal
selections.  However, exact score ties are NOT broken by input order: on a
fresh router two equally scored arms come back in reverse input order, as
in the second conjunct. -/
theorem linucb_select_deterministic_ties_reversed :
    (∀ (d : ℕ) (rt1 rt2 : RoutingLinUCB.RouterState d)
        (sqrtFn1 sqrtFn2 : ℚ → ℚ) (x1 x2 : RoutingLinUCB.Vec d)
        (arms1 arms2 : List String) (k1 k2 : ℕ) (bias1 bias2 : String → ℚ),
      rt1 = rt2 → sqrtFn1 = sqrtFn2 → x1 = x2 → arms1 = arms2 → k1 = k2 →
      bias1 = bias2 →
      RoutingLinUCB.select rt1 sqrtFn1 x1 arms1 k1 bias1 =
        RoutingLinUCB.select rt2 sqrtFn2 x2 arms2 k2 bias2) ∧
    RoutingLinUCB.select
        (RoutingLinUCB.RouterState.mk 1 1 ([] : List (String × RoutingLinUCB.ArmState 1)))
        id (fun _ => 1) ["a", "b"] 2 (fun _ => 0) = ["b", "a"] := by
  constructor
  · intro d rt1 rt2 s1 s2 x1 x2 a1 a2 k1 k2 b1 b2 h1 h2 h3 h4 h5 h6
    subst h1; subst h2; subst h3; subst h4; subst h5; subst h6
    rfl
  · exact linucb_select_tie_ranks_later_arm_first.2

/-- Witness for C3 (amended): the determinism conjunct applied at a
concrete router, feature vector and arm list, all hypotheses discharged by
reflexivity. -/
theorem linucb_select_deterministic_ties_reversed_witness :
    RoutingLinUCB.select
        (RoutingLinUCB.RouterState.mk 1 1 ([] : List (String × RoutingLinUCB.ArmState 1)))
        id (fun _ => 1) ["a", "b"] 2 (fun _ => 0) =
      RoutingLinUCB.select
        (RoutingLinUCB.RouterState.mk 1 1 ([] : List (String × RoutingLinUCB.ArmState 1)))
        id (fun _ => 1) ["a", "b"] 2 (fun _ => 0) :=
  linucb_select_deterministic_ties_reversed.1 1
    (RoutingLinUCB.RouterState.mk 1 1 ([] : List (String × RoutingLinUCB.ArmState 1)))
    (RoutingLinUCB.RouterState.mk 1 1 ([] : List (String × RoutingLinUCB.ArmState 1)))
    id id (fun _ => 1) (fun _ => 1) ["a", "b"] ["a", "b"] 2 2
    (fun _ => 0) (fun _ => 0) rfl rfl rfl rfl rfl rfl

namespace Judge

/-- Per-candidate judge scores, mirroring the pydantic model `JudgeScores`
in src/types.py: a python int index and four float metrics. -/
structure JudgeScore where
  index : ℤ
  relevance : ℚ
  coverage : ℚ
  faithfulness : ℚ
  overall : ℚ

/-- Judge verdict, mirroring `JudgeVerdict` in src/types.py. -/
structure JudgeVerdict where
  winner_index : ℤ
  scores : List JudgeScore

/-- Field constraints of `JudgeScores`: `index >= 0` (`ge=0`, with no upper
bound) and each metric within `[0, 1]` (`ge=0, le=1`). -/
def scoreOk (s : JudgeScore) : Bool :=
  decide (0 ≤ s.index) &&
  decide (0 ≤ s.relevance) && decide (s.relevance ≤ 1) &&
  decide (0 ≤ s.coverage) && decide (s.coverage ≤ 1) &&
  decide (0 ≤ s.faithfulness) && decide (s.faithfulness ≤ 1) &&
  decide (0 ≤ s.overall) && decide (s.overall ≤ 1)

/-- Validation step of `judge_previews` (judge.py line 71,
`JudgeVerdict.model_validate(data)`): pydantic accepts the verdict exactly
when `winner_index >= 0` and every score satisfies its field constraints;
a violation raises, which the orchestrator treats as a judge failure. -/
def model_validate (v : JudgeVerdict) : Option JudgeVerdict :=
  if decide (0 ≤ v.winner_index) && v.scores.all scoreOk then some v else none

/-- Overall score registered for integer index i by the dict comprehension
`{s.index: float(s.overall) for s in verdict.scores}`: the last score with
that index wins, absent indices give none. -/
def indexToOverall (scores : List JudgeScore) (i : ℤ) : Option ℚ :=
  ((scores.filter (fun s => s.index == i)).getLast?).map (fun s => s.overall)

/-- Sort key of `compute_candidate_order`:
`index_to_overall.get(i, 0.0)`. -/
def overallKey (v : JudgeVerdict) (i : ℕ) : ℚ :=
  (indexToOverall v.scores (i : ℤ)).getD 0

/-- Order produced by `sorted(range(N), key=..., reverse=True)` on the
duplicate-free list `range(N)`: a is ranked before b exactly when its key
is strictly larger, or the keys are equal and a comes first in the input
(python sorted is stable, also with reverse=True). -/
def orderRel (v : JudgeVerdict) (a b : ℕ) : Prop :=
  overallKey v b < overallKey v a ∨ (overallKey v a = overallKey v b ∧ a ≤ b)

instance (v : JudgeVerdict) : DecidableRel (orderRel v) := fun a b => by
  unfold orderRel
  exact inferInstance

lemma orderRel_total (v : JudgeVerdict) : IsTotal ℕ (orderRel v) := by
  constructor
  intro a b
  rcases lt_trichotomy (overallKey v a) (overallKey v b) with h | h | h
  · exact Or.inr (Or.inl h)
  · rcases Nat.le_total a b with hab | hab
    · exact Or.inl (Or.inr ⟨h, hab⟩)
    · exact Or.inr (Or.inr ⟨h.symm, hab⟩)
  · exact Or.inl (Or.inl h)

lemma orderRel_trans (v : JudgeVerdict) : IsTrans ℕ (orderRel v) := by
  constructor
  intro a b c hab hbc
  rcases hab with h1 | ⟨h1, h1le⟩ <;> rcases hbc with h2 | ⟨h2, h2le⟩
  · exact Or.inl (h2.trans h1)
  · exact Or.inl (h2 ▸ h1)
  · exact Or.inl (lt_of_lt_of_eq h2 h1.symm)
  · exact Or.inr ⟨h1.trans h2, h1le.trans h2le⟩

/-- Embedding of `compute_candidate_order` (judge.py lines 82-90).  Python
sorted is a stable sort; with `reverse=True` on the duplicate-free input
`range(total_candidates)` its output is the unique permutation sorted by
the linear order `orderRel` (overall key descending, ties by ascending
candidate index), which insertion sort computes. -/
def compute_candidate_order (v : JudgeVerdict) (total_candidates : ℕ) :
    List ℕ :=
  List.insertionSort (orderRel v) (List.range total_candidates)

end Judge

/-- C5 (amended): the parsed-verdict validation accepts a verdict exactly
when `winner_index >= 0` and every score has `index >= 0` and all four
metric fields in [0, 1]; a verdict violating these bounds is rejected.
The upper bound `index < N` stated by the claim is not checked anywhere:
`model_validate` does not depend on the number of candidates (see the
counterexample). -/
theorem judge_validate_accepts_iff_bounds (v : Judge.JudgeVerdict) :
    (Judge.model_validate v).isSome ↔
      (0 ≤ v.winner_index ∧ ∀ s ∈ v.scores, 0 ≤ s.index ∧
        (0 ≤ s.relevance ∧ s.relevance ≤ 1) ∧
        (0 ≤ s.coverage ∧ s.coverage ≤ 1) ∧
        (0 ≤ s.faithfulness ∧ s.faithfulness ≤ 1) ∧
        (0 ≤ s.overall ∧ s.overall ≤ 1)) := by
  unfold Judge.model_validate
  constructor
  · intro h
    by_cases hc : (decide (0 ≤ v.winner_index) && v.scores.all Judge.scoreOk) = true
    · obtain ⟨hw, hall⟩ := Bool.and_eq_true_iff.mp hc
      refine ⟨of_decide_eq_true hw, fun s hs => ?_⟩
      have := List.all_eq_true.mp hall s hs
      unfold Judge.scoreOk at this
      simp only [Bool.and_eq_true, decide_eq_true_eq] at this
      tauto
    · rw [if_neg hc] at h
      simp at h
  · intro ⟨hw, hall⟩
    have hc : (decide (0 ≤ v.winner_index) && v.scores.all Judge.scoreOk) = true := by
      rw [Bool.and_eq_true_iff]
      refine ⟨decide_eq_true hw, List.all_eq_true.mpr fun s hs => ?_⟩
      obtain ⟨h1, ⟨h2, h3⟩, ⟨h4, h5⟩, ⟨h6, h7⟩, ⟨h8, h9⟩⟩ := hall s hs
      unfold Judge.scoreOk
      simp only [Bool.and_eq_true, decide_eq_true_eq]
      tauto
    rw [if_pos hc]
    rfl

/-- Counterexample to C5 as stated: with a single candidate (N = 1) the
verdict whose only score carries index 5 — far outside [0, N) — and
metrics 1/2 is accepted by validation, not rejected. -/
theorem judge_validate_accepts_out_of_range_index :
    (Judge.model_validate
        (Judge.JudgeVerdict.mk 0 [Judge.JudgeScore.mk 5 (1/2) (1/2) (1/2) (1/2)])).isSome =
      true ∧ ¬ ((5:ℤ) < 1) := by
  constructor
  · norm_num [Judge.model_validate, Judge.scoreOk]
  · norm_num

/-- C7: for every verdict and every N, `compute_candidate_order(verdict, N)`
is a permutation of `[0..N)` sorted by overall key descending with indices
absent from the scores defaulting to 0, equal keys keeping ascending index
order (the stable tie-break); and on the literal example
`scores = [(index 0, overall 1/2), (index 1, overall 9/10)]` with N = 2 it
returns [1, 0]. -/
theorem judge_compute_candidate_order_spec :
    (∀ (v : Judge.JudgeVerdict) (N : ℕ),
      Judge.compute_candidate_order v N ~ List.range N ∧
      (Judge.compute_candidate_order v N).Sorted (Judge.orderRel v)) ∧
    Judge.compute_candidate_order
      (Judge.JudgeVerdict.mk 1
        [Judge.JudgeScore.mk 0 (1/2) (1/2) (1/2) (1/2),
          Judge.JudgeScore.mk 1 (9/10) (9/10) (9/10) (9/10)]) 2 = [1, 0] := by
  constructor
  · intro v N
    haveI := Judge.orderRel_total v
    haveI := Judge.orderRel_trans v
    exact ⟨List.perm_insertionSort _ _, List.sorted_insertionSort _ _⟩
  · norm_num [Judge.compute_candidate_order, List.insertionSort,
      List.orderedInsert, Judge.orderRel, Judge.overallKey,
      Judge.indexToOverall, List.range_succ, List.filter_cons, beq_iff_eq,
      List.getLast?_singleton, List.getLast?_cons_cons]

namespace Reward

/-! Embedding of src/runtime/reward.py and the reward step of
race_with_judge_and_stream (src/race/race.py lines 387-411).  The price
table (read from the environment) and the latency p95 store (read from the
metrics file) are passed as oracle functions. -/

/-- Reward weights, mirroring `QualityLatencyCostWeights`. -/
structure Weights where
  quality_weight : ℚ
  latency_weight : ℚ
  cost_weight : ℚ

/-- Weight normalization (`normalized`): divide by the total, floored at
1e-9. -/
def normalized (w : Weights) : Weights :=
  let total := max (1/1000000000)
    (w.quality_weight + w.latency_weight + w.cost_weight)
  Weights.mk (w.quality_weight / total) (w.latency_weight / total)
    (w.cost_weight / total)

/-- Embedding of `compute_latency_norm` (runtime/metrics.py): clamp of
`p95 / (3 + 3 * clamp(len(query)/max(1,L), 0, 1))` to [0, 1]; 0 when p95
is not positive. -/
def compute_latency_norm (query : String) (p95 : ℚ) (lengthThreshold : ℕ) : ℚ :=
  if p95 ≤ 0 then 0
  else
    let normLen := min 1 (max 0
      ((query.length : ℚ) / (max 1 lengthThreshold : ℕ)))
    let base := 3 + 3 * normLen
    max 0 (min 1 (p95 / base))

/-- Embedding of `QualityLatencyCostPolicy._latency_term`: 0.5 when no p95
is known or it is not positive, else `1 - latency_norm`. -/
def latency_term (p95 : Option ℚ) (query : String) (lengthThreshold : ℕ) : ℚ :=
  match p95 with
  | none => 1/2
  | some p => if p ≤ 0 then 1/2 else 1 - compute_latency_norm query p lengthThreshold

/-- Embedding of `QualityLatencyCostPolicy._cost_norm`: price-table branch
when a positive per-token price is known, token-ratio proxy otherwise. -/
def cost_norm (price : ℚ) (previewTokens : ℤ) (minPreviewTokens : ℤ) : ℚ :=
  if 0 < price then
    let baseline := max (1/1000000000) (price * (minPreviewTokens : ℚ))
    let est := price * (max 0 (previewTokens : ℚ))
    1 - min 1 (max 0 (est / baseline))
  else
    1 - min 1 (max 0 ((previewTokens : ℚ) / (max 1 minPreviewTokens : ℤ)))

/-- Quality term of `compute_rewards` (runtime/reward.py line 87): the
entry of `judge_overall` at the POSITION of the model in the models list,
0 when the list is shorter. -/
def qualityTerm (judge_overall : List ℚ) (i : ℕ) : ℚ :=
  if i < judge_overall.length then judge_overall.getD i 0 else 0

/-- Embedding of `QualityLatencyCostPolicy.compute_rewards`: one reward per
model position, blending quality, latency and cost with the normalized
weights, clamped to [0,1], with the fallback penalty subtracted for failed
full indices. -/
def compute_rewards (w : Weights) (fallbackPenalty : ℚ) (lengthThreshold : ℕ)
    (priceOf : String → ℚ) (p95Of : String → Option ℚ) (query : String)
    (models : List String) (judge_overall : List ℚ)
    (preview_tokens : List ℤ) (min_preview_tokens : ℤ)
    (failed : List ℕ) : List (String × ℚ) :=
  let nw := normalized w
  let fp := max 0 fallbackPenalty
  models.enum.map (fun p =>
    let i := p.1
    let m := p.2
    let quality := qualityTerm judge_overall i
    let latency := latency_term (p95Of m) query lengthThreshold
    let toks : ℤ := if i < preview_tokens.length then preview_tokens.getD i 0 else 0
    let cost := cost_norm (priceOf m) toks min_preview_tokens
    let r0 := nw.quality_weight * quality + nw.latency_weight * latency +
      nw.cost_weight * cost
    let r1 := max 0 (min 1 r0)
    let r2 := if i ∈ failed then max 0 (r1 - fp) else r1
    (m, r2))

/-- The list `judge_overall = [float(s.overall) for s in verdict.scores]`
built by race_with_judge_and_stream (race/race.py line 400): positional,
ignoring each score's index field. -/
def judgeOverallOf (v : Judge.JudgeVerdict) : List ℚ :=
  v.scores.map (fun s => s.overall)

end Reward

/-- C6: in the bandit reward step the quality term for candidate position i
is `verdict.scores[i].overall` — the i-th element of the scores list by
POSITION — not the overall of the score whose index field is i, and the
claim fails whenever the scores list is not listed in index order.  On the
verdict with scores [(index 1, overall 9/10), (index 0, overall 1/2)] the
code feeds quality 9/10 to candidate 0 and 1/2 to candidate 1, while the
score carrying index 0 is 1/2 and the score carrying index 1 is 9/10 (the
dict semantics used by compute_candidate_order in the same run, and by the
sibling implementation in src/race.py).  End to end, with quality weight 1,
compute_rewards returns 9/10 for the first model and 1/2 for the second. -/
theorem reward_quality_is_positional_not_by_index :
    Reward.qualityTerm
        (Reward.judgeOverallOf
          (Judge.JudgeVerdict.mk 0
            [Judge.JudgeScore.mk 1 (9/10) (9/10) (9/10) (9/10),
              Judge.JudgeScore.mk 0 (1/2) (1/2) (1/2) (1/2)])) 0 = 9/10 ∧
    Judge.overallKey
        (Judge.JudgeVerdict.mk 0
          [Judge.JudgeScore.mk 1 (9/10) (9/10) (9/10) (9/10),
            Judge.JudgeScore.mk 0 (1/2) (1/2) (1/2) (1/2)]) 0 = 1/2 ∧
    Reward.compute_rewards (Reward.Weights.mk 1 0 0) (1/20) 2000
        (fun _ => 0) (fun _ => none) "q" ["m0", "m1"]
        (Reward.judgeOverallOf
          (Judge.JudgeVerdict.mk 0
            [Judge.JudgeScore.mk 1 (9/10) (9/10) (9/10) (9/10),
              Judge.JudgeScore.mk 0 (1/2) (1/2) (1/2) (1/2)])) [5, 5] 5 [] =
      [("m0", 9/10), ("m1", 1/2)] := by
  refine ⟨?_, ?_, ?_⟩
  · norm_num [Reward.qualityTerm, Reward.judgeOverallOf]
  · norm_num [Judge.overallKey, Judge.indexToOverall, List.filter_cons,
      beq_iff_eq, List.getLast?_singleton, List.getLast?_cons_cons]
  · norm_num [Reward.compute_rewards, Reward.normalized, Reward.qualityTerm,
      Reward.judgeOverallOf, Reward.latency_term, Reward.cost_norm,
      List.enum, List.enumFrom]

namespace Streaming

/-! Embedding of src/streaming.py, `stream_response` (lines 103-140).  The
chunk sequence yielded by `agentsdk_text_stream` is an explicit list; the
async-for loop with its early break becomes structural recursion over that
list. -/

/-- Helper for `_count_tokens`: number of maximal non-whitespace runs of a
character list, i.e. `len(s.split())` for the python whitespace split.
The flag records whether the previous character was inside a word. -/
def countTokensAux : Bool → List Char → ℕ
  | _, [] => 0
  | inWord, c :: rest =>
    if c.isWhitespace then countTokensAux false rest
    else (if inWord then 0 else 1) + countTokensAux true rest

/-- Embedding of `_count_tokens` (streaming.py lines 26-27):
`0 if not s else len(s.split())`. -/
def count_tokens (s : String) : ℕ :=
  if s = "" then 0 else countTokensAux false s.data

/-- Truthiness test of the break condition
`stop_after_tokens and token_count >= stop_after_tokens`: `None` and 0 are
falsy, so only a positive cap ever stops the loop. -/
def stopHit (stop : Option ℕ) (count : ℕ) : Bool :=
  match stop with
  | none => false
  | some t => decide (t ≠ 0) && decide (t ≤ count)

/-- Chunks the driver consumes: the loop body adds each chunk's tokens to
the running count and breaks immediately after the chunk that satisfies
the stop condition, leaving the rest of the stream unread. -/
def consumedChunks (stop : Option ℕ) : ℕ → List String → List String
  | _, [] => []
  | acc, c :: rest =>
    let acc2 := acc + count_tokens c
    if stopHit stop acc2 then [c] else c :: consumedChunks stop acc2 rest

/-- Cumulative token count of a chunk list. -/
def tokensOf (chunks : List String) : ℕ := (chunks.map count_tokens).sum

/-- Result of `stream_response` over a chunk stream with text capture on:
the token count of the consumed prefix and the stripped concatenation of
its text. -/
def stream_response (stop : Option ℕ) (chunks : List String) : ℕ × String :=
  let consumed := consumedChunks stop 0 chunks
  (tokensOf consumed, (String.join consumed).trim)

lemma tokensOf_nil : tokensOf [] = 0 := rfl

lemma tokensOf_cons (c : String) (l : List String) :
    tokensOf (c :: l) = count_tokens c + tokensOf l := by
  simp [tokensOf]

lemma consumedChunks_cons (stop : Option ℕ) (acc : ℕ) (c : String)
    (rest : List String) :
    consumedChunks stop acc (c :: rest) =
      if stopHit stop (acc + count_tokens c) then [c]
      else c :: consumedChunks stop (acc + count_tokens c) rest := rfl

lemma consumed_spec (t : ℕ) (ht : 1 ≤ t) :
    ∀ (chunks : List String) (acc : ℕ), acc < t →
      (consumedChunks (some t) acc chunks) <+: chunks ∧
      (∀ q, q <+: consumedChunks (some t) acc chunks →
        q ≠ consumedChunks (some t) acc chunks → acc + tokensOf q < t) ∧
      (t ≤ acc + tokensOf (consumedChunks (some t) acc chunks) ∨
        consumedChunks (some t) acc chunks = chunks) := by
  intro chunks
  induction chunks with
  | nil =>
    intro acc hacc
    refine ⟨List.nil_prefix, ?_, Or.inr rfl⟩
    intro q hq hne
    exact absurd (List.prefix_nil.mp hq) hne
  | cons c rest ih =>
    intro acc hacc
    by_cases hstop : t ≤ acc + count_tokens c
    · have hhit : stopHit (some t) (acc + count_tokens c) = true := by
        unfold stopHit
        rw [Bool.and_eq_true_iff]
        exact ⟨decide_eq_true (by omega), decide_eq_true hstop⟩
      rw [consumedChunks_cons, hhit, if_pos rfl]
      refine ⟨?_, ?_, Or.inl ?_⟩
      · exact (List.cons_prefix_cons).mpr ⟨rfl, List.nil_prefix⟩
      · intro q hq hne
        rcases q with _ | ⟨q0, q2⟩
        · rw [tokensOf_nil]
          omega
        · obtain ⟨heq, hq2⟩ := (List.cons_prefix_cons).mp hq
          subst heq
          rw [List.prefix_nil.mp hq2] at hne
          exact absurd rfl hne
      · rw [tokensOf_cons, tokensOf_nil]
        omega
    · have hhit : stopHit (some t) (acc + count_tokens c) = false := by
        unfold stopHit
        simp only [Bool.and_eq_false_iff, decide_eq_false_iff_not]
        right
        omega
      rw [consumedChunks_cons, hhit, if_neg Bool.false_ne_true]
      obtain ⟨hpre, hmin, hlast⟩ := ih (acc + count_tokens c) (by omega)
      refine ⟨?_, ?_, ?_⟩
      · exact (List.cons_prefix_cons).mpr ⟨rfl, hpre⟩
      · intro q hq hne
        rcases q with _ | ⟨q0, q2⟩
        · rw [tokensOf_nil]
          omega
        · obtain ⟨heq, hq2⟩ := (List.cons_prefix_cons).mp hq
          subst heq
          have h2 := hmin q2 hq2 (fun h => hne (by rw [h]))
          rw [tokensOf_cons]
          omega
      · rcases hlast with h | h
        · left
          rw [tokensOf_cons]
          omega
        · right
          rw [h]

end Streaming

/-- C8 (amended): for every event stream and every `stop_after_tokens`
t ≥ 1, the driver consumes exactly the minimal prefix of the stream whose
cumulative whitespace-split token count reaches t (every proper prefix
counts strictly fewer than t tokens, and the consumed prefix reaches t
unless the stream is exhausted first); in particular with t = 1 the driver
exits after the first delta carrying at least one token.  (As frozen the
claim says "first non-empty delta": a whitespace-only delta is a non-empty
string with zero tokens and does not stop the driver, see the
counterexample.) -/
theorem stream_response_early_stop
    (chunks : List String) (t : ℕ) (ht : 1 ≤ t) :
    (Streaming.consumedChunks (some t) 0 chunks <+: chunks ∧
      (∀ q, q <+: Streaming.consumedChunks (some t) 0 chunks →
        q ≠ Streaming.consumedChunks (some t) 0 chunks →
        Streaming.tokensOf q < t) ∧
      (t ≤ Streaming.tokensOf (Streaming.consumedChunks (some t) 0 chunks) ∨
        Streaming.consumedChunks (some t) 0 chunks = chunks)) ∧
    ∀ (c : String) (rest : List String), 1 ≤ Streaming.count_tokens c →
      Streaming.consumedChunks (some 1) 0 (c :: rest) = [c] := by
  constructor
  · have h := Streaming.consumed_spec t ht chunks 0 (by omega)
    simpa using h
  · intro c rest hc
    have hhit : Streaming.stopHit (some 1) (0 + Streaming.count_tokens c) = true := by
      unfold Streaming.stopHit
      rw [Bool.and_eq_true_iff]
      exact ⟨decide_eq_true (by omega), decide_eq_true (by omega)⟩
    unfold Streaming.consumedChunks
    simp only [hhit, if_true]

/-- Witness for C8 (amended) at a concrete stream: cap 2 on the stream
with chunks "ab cd" then "x". -/
theorem stream_response_early_stop_witness :
    (Streaming.consumedChunks (some 2) 0 ["ab cd", "x"] <+: ["ab cd", "x"] ∧
      (∀ q, q <+: Streaming.consumedChunks (some 2) 0 ["ab cd", "x"] →
        q ≠ Streaming.consumedChunks (some 2) 0 ["ab cd", "x"] →
        Streaming.tokensOf q < 2) ∧
      (2 ≤ Streaming.tokensOf (Streaming.consumedChunks (some 2) 0 ["ab cd", "x"]) ∨
        Streaming.consumedChunks (some 2) 0 ["ab cd", "x"] = ["ab cd", "x"])) ∧
    ∀ (c : String) (rest : List String), 1 ≤ Streaming.count_tokens c →
      Streaming.consumedChunks (some 1) 0 (c :: rest) = [c] :=
  stream_response_early_stop ["ab cd", "x"] 2 (by decide)

/-- Counterexample to C8 as frozen: with `stop_after_tokens = 1` and the
stream whose first delta is the non-empty whitespace string " ", the
driver does not exit after that first non-empty delta — it consumes the
second event as well, because " " contributes zero whitespace-split
tokens. -/
theorem stream_driver_reads_past_nonempty_whitespace_delta :
    Streaming.consumedChunks (some 1) 0 [" ", "x"] = [" ", "x"] ∧
    (" " : String) ≠ "" := by
  constructor
  · decide
  · decide

namespace Race

/-! Embedding of the preview stage of `race_with_judge_and_stream`
(src/race/race.py lines 237-269). -/

/-- Outcome of one `_timed_preview` await as observed by the preview loop:
either the stream finishes within the per-preview timeout and yields
`(tokens, text, elapsed)`, or `asyncio.wait_for` raises TimeoutError.
Wall-clock timing is external, so the outcome is an input of the model. -/
inductive PreviewAttempt where
  | ok (tokens : ℕ) (text : String) (elapsed : ℚ)
  | timeout

/-- The preview loop `for i, agent in enumerate(agents)` in the no-cache
configuration (`preview_cache_get` returns None when REDIS_URL is unset):
candidates are previewed one after another by awaiting `_timed_preview`,
and each result `(tokens, text, elapsed)` is appended to
`previews_results`.  The loop body contains no exception handler, so a
TimeoutError propagates out of `race_with_judge_and_stream` (modelled by
`Except.error`), abandoning the remaining candidates and never reaching
the judge. -/
def previewsStage : List PreviewAttempt → Except Unit (List (ℕ × String × Option ℚ))
  | [] => .ok []
  | .timeout :: _ => .error ()
  | .ok tokens text elapsed :: rest =>
    match previewsStage rest with
    | .ok acc => .ok ((tokens, text, some elapsed) :: acc)
    | .error e => .error e

end Race

/-- C1: evaluation of the preview stage at the failing input.  With a
per-preview timeout configured and three candidates whose streams behave
as (ok, timeout, ok), the race run FAILS: the uncaught TimeoutError aborts
the preview loop, so the third candidate is never previewed and judging is
never reached — whereas the claim expects the run to continue with the
timed-out candidate recorded as (0 tokens, empty text, latency None).
The second conjunct shows the same three candidates all succeeding is the
only way the stage produces a result list. -/
theorem race_preview_timeout_aborts_run :
    Race.previewsStage
        [Race.PreviewAttempt.ok 3 "p0" 1, Race.PreviewAttempt.timeout,
          Race.PreviewAttempt.ok 2 "p2" 1] = Except.error () ∧
    Race.previewsStage
        [Race.PreviewAttempt.ok 3 "p0" 1, Race.PreviewAttempt.timeout,
          Race.PreviewAttempt.ok 2 "p2" 1] ≠
      Except.ok [(3, "p0", some 1), (0, "", none), (2, "p2", some 1)] := by
  refine ⟨rfl, ?_⟩
  intro h
  exact Except.noConfusion (h.symm.trans rfl)

namespace Citations

/-! Embedding of src/citations.py.  `urllib.parse.urlsplit`, `parse_qsl`
and `urlencode` are standard-library collaborators; they are modelled here
from their documented behavior for http(s) URLs (percent-codec steps,
which are inverse to each other on the round trip, are modelled as the
identity). -/

/-- Characters before the first occurrence of sep, and the remainder after
it when present. -/
def splitFirst (sep : Char) : List Char → List Char × Option (List Char)
  | [] => ([], none)
  | c :: rest =>
    if c == sep then ([], some rest)
    else
      let r := splitFirst sep rest
      (c :: r.1, r.2)

/-- Characters before the first delimiter, and the remainder starting at
that delimiter. -/
def takeUntilAny (delims : List Char) : List Char → List Char × List Char
  | [] => ([], [])
  | c :: rest =>
    if delims.contains c then ([], c :: rest)
    else
      let r := takeUntilAny delims rest
      (c :: r.1, r.2)

/-- Characters allowed after the first letter of a URL scheme. -/
def isSchemeTail (c : Char) : Bool :=
  c.isAlpha || c.isDigit || c == '+' || c == '-' || c == '.'

/-- Result of `urlsplit`. -/
structure SplitUrl where
  scheme : String
  netloc : String
  path : String
  query : String
  fragment : String

/-- Model of `urllib.parse.urlsplit`: detect a scheme (a letter followed by
scheme characters, before a colon), a netloc after a leading "//" up to
the next "/", "?" or "#", then split off the fragment after "#" and the
query after "?". -/
def urlsplit (url : String) : SplitUrl :=
  let cs := url.data
  let schemeRest : List Char × List Char :=
    match splitFirst ':' cs with
    | (before, some after) =>
      if !before.isEmpty && (before.headD 'a').isAlpha &&
          before.all isSchemeTail
      then (before, after) else ([], cs)
    | (_, none) => ([], cs)
  let netlocRest : List Char × List Char :=
    match schemeRest.2 with
    | '/' :: '/' :: r => takeUntilAny ['/', '?', '#'] r
    | other => ([], other)
  let fragSplit := splitFirst '#' netlocRest.2
  let querySplit := splitFirst '?' fragSplit.1
  SplitUrl.mk (String.mk schemeRest.1).toLower (String.mk netlocRest.1)
    (String.mk querySplit.1) (String.mk (querySplit.2.getD []))
    (String.mk (fragSplit.2.getD []))

/-- Model of `parse_qsl(query, keep_blank_values=True)`: split the query on
"&", skip empty fields, and split each field at its first "=" (fields
without "=" get an empty value). -/
def parse_qsl (q : String) : List (String × String) :=
  ((q.split (fun c => c == '&')).filter (fun f => !(f == ""))).map
    (fun f =>
      let r := splitFirst '=' f.data
      (String.mk r.1, String.mk (r.2.getD [])))

/-- Model of `urlencode`: join each pair as "k=v" with "&" separators. -/
def urlencode (params : List (String × String)) : String :=
  String.intercalate "&" (params.map (fun p => p.1 ++ "=" ++ p.2))

/-- The `TRACKING_PREFIXES` tuple of citations.py. -/
def trackingPrefixes : List String :=
  ["utm", "utm_", "ref", "fbclid", "gclid", "mc_cid", "mc_eid", "igshid"]

/-- Tracking-parameter test: the lowercased key starts with one of the
tracking markers. -/
def isTracking (k : String) : Bool :=
  trackingPrefixes.any (fun p => k.toLower.startsWith p)

/-- Python `list.sort()` order on (key, value) string pairs: lexicographic
on the pair. -/
def pairRel (a b : String × String) : Prop :=
  a.1 < b.1 ∨ (a.1 = b.1 ∧ a.2 ≤ b.2)

instance : DecidableRel pairRel := fun a b => by
  unfold pairRel
  exact inferInstance

/-- Strip of trailing "/" characters, modelling `path.rstrip("/")`. -/
def rstripSlash (p : String) : String :=
  String.mk ((p.data.reverse.dropWhile (fun c => c == '/')).reverse)

/-- Model of `urllib.parse.urlunsplit` on `(scheme, netloc, path, query,
"")`. -/
def urlunsplit (scheme netloc path query : String) : String :=
  let url1 :=
    if netloc ≠ "" ∨ (path ≠ "" ∧ path.startsWith "//") then
      let p2 := if path ≠ "" ∧ ¬ path.startsWith "/" then "/" ++ path else path
      "//" ++ netloc ++ p2
    else path
  let url2 := if scheme ≠ "" then scheme ++ ":" ++ url1 else url1
  if query ≠ "" then url2 ++ "?" ++ query else url2

/-- Embedding of `normalize_url` (citations.py lines 20-38): trim, split,
lowercase the host and strip a leading "www.", trim trailing slashes of the
path (an empty path becomes "/"), drop tracking query parameters, sort the
remaining parameters, rebuild without fragment. -/
def normalize_url (url : String) : String :=
  if url = "" then url
  else
    let u := url.trim
    let sp := urlsplit u
    let host0 := sp.netloc.toLower
    let host := if host0.startsWith "www." then host0.drop 4 else host0
    let path0 := rstripSlash sp.path
    let path := if path0 = "" then "/" else path0
    let params := (parse_qsl sp.query).filter (fun kv => !(isTracking kv.1))
    let sortedParams := List.insertionSort pairRel params
    let query := urlencode sortedParams
    urlunsplit sp.scheme.toLower host path query

/-- Embedding of `_domain_from_url` (citations.py lines 97-102): lowercased
host with a leading "www." stripped. -/
def domain_from_url (url : String) : String :=
  let h := (urlsplit url).netloc.toLower
  if h.startsWith "www." then h.drop 4 else h

/-- A citation entry, the `{title, url}` dict of citations.py. -/
structure Citation where
  title : String
  url : String

/-- Loop of `dedupe_citations` with the running `seen` set (membership is
all the source uses, so the set is carried as a list of seen keys). -/
def dedupeAux (seen : List String) : List Citation → List Citation
  | [] => []
  | c :: rest =>
    let norm := normalize_url c.url.trim
    if norm = "" ∨ norm ∈ seen then dedupeAux seen rest
    else Citation.mk c.title.trim norm :: dedupeAux (norm :: seen) rest

/-- Embedding of `dedupe_citations` (citations.py lines 41-56). -/
def dedupe_citations (citations : List Citation) : List Citation :=
  dedupeAux [] citations

/-- Embedding of `merge_and_dedupe` (citations.py lines 59-67): concatenate
the lists and dedupe. -/
def merge_and_dedupe (citationLists : List (List Citation)) : List Citation :=
  dedupe_citations citationLists.flatten

/-- Loop of `clean_citations_for_export` with the running `seen` set. -/
def cleanAux (seen : List String) : List Citation → List Citation
  | [] => []
  | c :: rest =>
    let url := normalize_url c.url.trim
    if url = "" ∨ url ∈ seen then cleanAux seen rest
    else Citation.mk (domain_from_url url) url :: cleanAux (url :: seen) rest

/-- Embedding of `clean_citations_for_export` (citations.py lines 105-114):
re-normalize every url, drop empties and duplicates keeping first
occurrences, and REPLACE each title by the domain of the normalized url. -/
def clean_citations_for_export (citations : List Citation) : List Citation :=
  cleanAux [] citations

/-- First-occurrence filter on a string list with a seen accumulator. -/
def firstOccur (seen : List String) : List String → List String
  | [] => []
  | u :: rest =>
    if u ∈ seen then firstOccur seen rest
    else u :: firstOccur (u :: seen) rest

end Citations

namespace Citations

lemma cleanAux_map_url (seen : List String) (l : List Citation) :
    (cleanAux seen l).map (fun e => e.url) =
      firstOccur seen
        ((l.map (fun c => normalize_url c.url.trim)).filter
          (fun u => !(u == ""))) := by
  induction l generalizing seen with
  | nil => rfl
  | cons c rest ih =>
    simp only [cleanAux, List.map_cons, List.filter_cons]
    by_cases h0 : normalize_url c.url.trim = ""
    · rw [if_pos (Or.inl h0)]
      have hkeep : (!(normalize_url c.url.trim == "")) = false := by simp [h0]
      rw [hkeep, if_neg Bool.false_ne_true]
      exact ih seen
    · have hkeep : (!(normalize_url c.url.trim == "")) = true := by simp [h0]
      rw [hkeep, if_pos rfl]
      by_cases h1 : normalize_url c.url.trim ∈ seen
      · rw [if_pos (Or.inr h1)]
        simp only [firstOccur]
        rw [if_pos h1]
        exact ih seen
      · rw [if_neg (not_or.mpr ⟨h0, h1⟩), List.map_cons,
          ih (normalize_url c.url.trim :: seen)]
        simp only [firstOccur]
        rw [if_neg h1]

lemma firstOccur_nodup_and_fresh (l : List String) :
    ∀ seen : List String, (firstOccur seen l).Nodup ∧
      ∀ u ∈ firstOccur seen l, u ∉ seen := by
  induction l with
  | nil => intro seen; exact ⟨List.nodup_nil, by intro u hu; cases hu⟩
  | cons x rest ih =>
    intro seen
    rw [firstOccur]
    by_cases hx : x ∈ seen
    · rw [if_pos hx]
      exact ih seen
    · rw [if_neg hx]
      obtain ⟨hnd, hfresh⟩ := ih (x :: seen)
      constructor
      · refine List.Nodup.cons ?_ hnd
        intro hmem
        exact hfresh x hmem (List.mem_cons_self x seen)
      · intro u hu
        rcases List.mem_cons.mp hu with rfl | hu2
        · exact hx
        · intro hu3
          exact hfresh u hu2 (List.mem_cons_of_mem x hu3)

set_option maxHeartbeats 1600000 in
lemma cleanAux_entries (seen : List String) (l : List Citation) :
    ∀ e ∈ cleanAux seen l, e.title = domain_from_url e.url ∧
      ∃ c ∈ l, e.url = normalize_url c.url.trim := by
  induction l generalizing seen with
  | nil => intro e he; cases he
  | cons c rest ih =>
    intro e he
    simp only [cleanAux] at he
    by_cases hskip : normalize_url c.url.trim = "" ∨
        normalize_url c.url.trim ∈ seen
    · rw [if_pos hskip] at he
      obtain ⟨ht, c2, hc2, hu⟩ := ih seen e he
      exact ⟨ht, c2, List.mem_cons_of_mem c hc2, hu⟩
    · rw [if_neg hskip] at he
      rcases List.mem_cons.mp he with rfl | he2
      · refine ⟨?_, c, List.mem_cons_self c rest, ?_⟩
        · show domain_from_url (normalize_url c.url.trim) =
            domain_from_url (normalize_url c.url.trim)
          rfl
        · show normalize_url c.url.trim = normalize_url c.url.trim
          rfl
      · obtain ⟨ht, c2, hc2, hu⟩ := ih _ e he2
        exact ⟨ht, c2, List.mem_cons_of_mem c hc2, hu⟩

end Citations

/-- C10: for every list of extracted citations, the final citation list the
orchestrator exports (`clean_citations_for_export`, applied by
`_collect_citations` to the merged preview and full-answer citations)
replaces each entry title with the host of its normalized URL (lowercased,
leading "www." stripped — `_domain_from_url`), discarding the original
titles; and the exported URLs are the normalized URLs of the input in
first-occurrence order with duplicates and empties dropped, hence
pairwise distinct. -/
theorem citations_clean_for_export_spec (citations : List Citations.Citation) :
    (∀ e ∈ Citations.clean_citations_for_export citations,
      e.title = Citations.domain_from_url e.url ∧
      ∃ c ∈ citations, e.url = Citations.normalize_url c.url.trim) ∧
    (Citations.clean_citations_for_export citations).map (fun e => e.url) =
      Citations.firstOccur []
        ((citations.map (fun c => Citations.normalize_url c.url.trim)).filter
          (fun u => !(u == ""))) ∧
    ((Citations.clean_citations_for_export citations).map
      (fun e => e.url)).Nodup := by
  refine ⟨Citations.cleanAux_entries [] citations, ?_, ?_⟩
  · exact Citations.cleanAux_map_url [] citations
  · rw [Citations.clean_citations_for_export, Citations.cleanAux_map_url]
    exact (Citations.firstOccur_nodup_and_fresh _ []).1

/-- Counterexample to C2 as frozen (which quantifies over every k): at
k = 0 with one arm, `select` returns max(1, min(k, n)) = 1 element, not
min(0, 1) = 0 elements. -/
theorem linucb_select_k_zero_returns_one_arm :
    (RoutingLinUCB.select
        (RoutingLinUCB.RouterState.mk 1 1 ([] : List (String × RoutingLinUCB.ArmState 1)))
        id (fun _ => 0) ["a"] 0 (fun _ => 0)).length = 1 ∧
      min 0 (["a"] : List String).length = 0 := by
  refine ⟨?_, rfl⟩
  have hsc : RoutingLinUCB.scoresList
      (RoutingLinUCB.RouterState.mk 1 1 ([] : List (String × RoutingLinUCB.ArmState 1)))
      id (fun _ => 0) ["a"] (fun _ => 0) =
      [RoutingLinUCB.ucbScore
        (RoutingLinUCB.RouterState.mk 1 1 ([] : List (String × RoutingLinUCB.ArmState 1)))
        id (fun _ => 0) (fun _ => 0) "a"] := rfl
  rw [RoutingLinUCB.select, hsc]
  have h1 : RoutingLinUCB.selectIdx
      [RoutingLinUCB.ucbScore
        (RoutingLinUCB.RouterState.mk 1 1 ([] : List (String × RoutingLinUCB.ArmState 1)))
        id (fun _ => 0) (fun _ => 0) "a"] 0 = [0] := by
    simp [RoutingLinUCB.selectIdx, RoutingLinUCB.argpartition,
      RoutingLinUCB.argsortAsc, RoutingLinUCB.argminScan,
      RoutingLinUCB.swapAt, RoutingLinUCB.insertAsc, List.range_succ]
  rw [h1]
  rfl
